import Mathlib

/-!
Verification development for the speech-diarization pipeline
(`backend/pipeline_core.py`, `backend/config.py`).

Timestamps are modelled as exact rationals (seconds) and audio positions
inside the chunk planner as integers (milliseconds), exactly as the code
computes them (`duration_ms = len(audio)`, `chunk_duration_ms = ..._s * 1000`).
-/

namespace Diarization

/-! ## Chunk planner (`_perform_asr`, lines 185-237)

The code computes `step_ms = chunk_duration_ms - overlap_ms` and runs
`for i_start_ms in range(0, duration_ms, step_ms)` with
`i_end_ms = min(i_start_ms + chunk_duration_ms, duration_ms)`, breaking
after the window whose end reaches `duration_ms`.
-/

/-- One pass of the Python `for i_start_ms in range(0, duration_ms, step_ms)`
loop with the `if i_end_ms == duration_ms: break` exit, for a positive step.
`i` is the current loop variable; the guard `i < D` is the `range` bound. -/
def chunkLoop (D C S : ℤ) (hS : 0 < S) (i : ℤ) : List (ℤ × ℤ) :=
  if _h : i < D then
    (i, min (i + C) D) ::
      (if min (i + C) D = D then [] else chunkLoop D C S hS (i + S))
  else []
termination_by (D - i).toNat
decreasing_by omega

/-- The windows produced by the chunked-ASR loop for total duration `D` ms,
chunk duration `C` ms and overlap `V` ms.  `none` models the
`ValueError` that `range(0, D, 0)` raises when the step is zero (it is
caught by the surrounding `except Exception`, failing the ASR stage);
a negative step makes `range` empty, so the loop body never runs. -/
def planChunks (D C V : ℤ) : Option (List (ℤ × ℤ)) :=
  if hS : 0 < C - V then some (chunkLoop D C (C - V) hS 0)
  else if C - V = 0 then none
  else some []

/-! ## Word-stream stitcher (`_perform_asr`, lines 216-248)

Per-chunk word segments arrive already translated to global time
(`_perform_asr_on_chunk` adds the chunk offset).  The stitcher keeps an
accumulator `all_word_segments`; for each chunk it computes an effective
start boundary (`chunk_offset_s + overlap_s / 2` when the accumulator is
non-empty, else the chunk offset itself) and appends each segment whose
start is at or after the boundary — or unconditionally while the
accumulator is empty.  Afterwards it sorts by start and drops exact
`(start, end, text)` repeats. -/

/-- A word segment as produced by the ASR engine, in global time. -/
structure WordSeg where
  text : String
  start : ℚ
  stop : ℚ
  deriving DecidableEq, Repr

/-- The per-chunk acceptance loop of lines 216-229: compute the effective
start boundary once from the accumulator's current emptiness, then fold
over the chunk's segments with the condition
`not all_word_segments or seg.start >= effective_chunk_start_s`. -/
def processChunk (V : ℚ) (acc : List WordSeg) (chunkOffset : ℚ) (segs : List WordSeg) :
    List WordSeg :=
  let effective := if acc.isEmpty then chunkOffset else chunkOffset + V / 2
  segs.foldl (fun a seg =>
    if a.isEmpty ∨ effective ≤ seg.start then a ++ [seg] else a) acc

/-- Folding the acceptance loop over all chunks, starting from the empty
accumulator (`all_word_segments = []`). -/
def accumulateChunks (V : ℚ) (chunks : List (ℚ × List WordSeg)) : List WordSeg :=
  chunks.foldl (fun acc c => processChunk V acc c.1 c.2) []

/-- `sorted(all_word_segments, key=lambda x: x['timestamp'][0])`. -/
def sortByStart (l : List WordSeg) : List WordSeg :=
  l.mergeSort (fun a b => decide (a.start ≤ b.start))

/-- The deduplication loop of lines 241-248: walk the sorted list keeping a
set of `(start, end, text)` keys already seen; keep a segment only when its
key is new. -/
def dedupGo : List WordSeg → List WordSeg → List (ℚ × ℚ × String) → List WordSeg
  | [], acc, _ => acc
  | seg :: rest, acc, seen =>
    if (seg.start, seg.stop, seg.text) ∈ seen then dedupGo rest acc seen
    else dedupGo rest (acc ++ [seg]) ((seg.start, seg.stop, seg.text) :: seen)

/-- The full stitched word stream: accumulate with overlap resolution, then
sort by start and deduplicate. -/
def stitchSegments (V : ℚ) (chunks : List (ℚ × List WordSeg)) : List WordSeg :=
  dedupGo (sortByStart (accumulateChunks V chunks)) [] []

/-- `" ".join([s['text'] for s in chunk_word_segments if s.get('text')]).strip()`
(line 207). -/
def chunkText (segs : List WordSeg) : String :=
  (String.intercalate " " ((segs.filter (fun s => s.text ≠ "")).map (fun s => s.text))).trim

/-- The value assembled for `asr_result` in the batched branch
(line 250): the stitched word stream and the diagnostic full text. -/
structure AsrOutcome where
  chunks : List WordSeg
  text : String
  deriving DecidableEq, Repr

/-- The whole batched-ASR branch of `_perform_asr` (lines 176-257) given the
external ASR engine's per-chunk output: plan windows over `durationMs` with
chunk duration `C_s` seconds and overlap `V_s` seconds (both converted to
milliseconds, line 185-186); for each window run the engine
(`asrChunk offset_s end_s`, global-time segments), collect text parts,
stitch; `none` is the stage's failure outcome (the caught `ValueError` of a
zero step). -/
def performAsrBatched (durationMs C_s V_s : ℤ) (asrChunk : ℚ → ℚ → List WordSeg) :
    Option AsrOutcome :=
  match planChunks durationMs (C_s * 1000) (V_s * 1000) with
  | none => none
  | some ws =>
    let all := ws.foldl
      (fun acc w =>
        processChunk (V_s : ℚ) acc ((w.1 : ℚ) / 1000) (asrChunk ((w.1 : ℚ) / 1000) ((w.2 : ℚ) / 1000)))
      []
    let parts := (ws.map (fun w => chunkText (asrChunk ((w.1 : ℚ) / 1000) ((w.2 : ℚ) / 1000)))).filter
      (fun t => t ≠ "")
    some { chunks := dedupGo (sortByStart all) [] [], text := String.intercalate " " parts }

/-! ## Speaker aligner (`_get_speaker_for_word`, lines 267-274)

The code iterates `diarization.itertracks(yield_label=True)` inside a
`try`, returning the first label whose segment satisfies
`segment.start <= word_mid_time < segment.end`; any exception during the
iteration is caught, and the fall-through returns `"UNKNOWN_SPEAKER"`.
Iteration of a possibly malformed timeline is embedded as a list of steps
that either yield an interval or raise. -/

/-- A speaker-labelled interval yielded by `itertracks`. -/
structure SpeakerInterval where
  start : ℚ
  stop : ℚ
  speaker : String
  deriving DecidableEq, Repr

/-- One step of iterating a timeline: either the next interval, or the
point where the iterator raises. -/
inductive IterStep where
  | ok (seg : SpeakerInterval)
  | err
  deriving DecidableEq, Repr

/-- The intervals a timeline yields before its iterator first raises. -/
def yieldedIntervals : List IterStep → List SpeakerInterval
  | [] => []
  | IterStep.err :: _ => []
  | IterStep.ok seg :: rest => seg :: yieldedIntervals rest

/-- `_get_speaker_for_word`: first interval containing the midpoint wins;
exhaustion or an iterator error falls through to `"UNKNOWN_SPEAKER"`. -/
def getSpeakerForWord (steps : List IterStep) (t : ℚ) : String :=
  match steps with
  | [] => "UNKNOWN_SPEAKER"
  | IterStep.err :: _ => "UNKNOWN_SPEAKER"
  | IterStep.ok seg :: rest =>
    if seg.start ≤ t ∧ t < seg.stop then seg.speaker else getSpeakerForWord rest t

/-! ## Segment merger (`_combine_results`, lines 283-318)

The state machine over the aligned word stream: one open segment
`current_segment`, appended to while the speaker is unchanged and the gap
`word_start - current.end_time` is below 1.0 s; otherwise the open segment
is trimmed and emitted (when non-empty) and a fresh one is opened.  At
stream end the open segment is emitted when its trimmed text is non-empty —
note the code appends it with its text *untrimmed* (line 315-316). -/

/-- A word of the aligned stream: the ASR token plus its speaker label. -/
structure AlignedWord where
  speaker : String
  text : String
  start : ℚ
  stop : ℚ
  deriving DecidableEq, Repr

/-- An output segment (`speaker`, `text`, `start_time`, `end_time`). -/
structure Segment where
  speaker : String
  text : String
  start : ℚ
  stop : ℚ
  deriving DecidableEq, Repr

/-- One iteration of the merging loop (lines 306-314).  State:
`(current_segment, final_segments)`. -/
def mergeStep (st : Option Segment × List Segment) (w : AlignedWord) :
    Option Segment × List Segment :=
  match st with
  | (none, out) => (some ⟨w.speaker, w.text, w.start, w.stop⟩, out)
  | (some cur, out) =>
    if cur.speaker = w.speaker ∧ w.start - cur.stop < 1 then
      (some { cur with text := cur.text ++ w.text, stop := w.stop }, out)
    else
      (some ⟨w.speaker, w.text, w.start, w.stop⟩,
        if cur.text.trim = "" then out else out ++ [{ cur with text := cur.text.trim }])

/-- The full merging pass, including the end-of-stream emission
(lines 315-316): the final open segment is appended as-is when its
trimmed text is non-empty. -/
def mergeAligned (ws : List AlignedWord) : List Segment :=
  match ws.foldl mergeStep (none, []) with
  | (none, out) => out
  | (some cur, out) => if cur.text.trim = "" then out else out ++ [cur]

/-- Modelled from the spec: the merger as §4.5 words it, with the split
condition stated as the disjunction "speaker change OR gap ≥ 1.0 s" (the
claim's "exactly two split conditions"); end-of-stream emission as the code
actually performs it (untrimmed text, emitted when its trim is non-empty). -/
def specMergeStep (st : Option Segment × List Segment) (w : AlignedWord) :
    Option Segment × List Segment :=
  match st with
  | (none, out) => (some ⟨w.speaker, w.text, w.start, w.stop⟩, out)
  | (some cur, out) =>
    if cur.speaker ≠ w.speaker ∨ 1 ≤ w.start - cur.stop then
      (some ⟨w.speaker, w.text, w.start, w.stop⟩,
        if cur.text.trim = "" then out else out ++ [{ cur with text := cur.text.trim }])
    else
      (some { cur with text := cur.text ++ w.text, stop := w.stop }, out)

/-- Modelled from the spec: the whole merger with the two split conditions
explicit. -/
def specMergeAligned (ws : List AlignedWord) : List Segment :=
  match ws.foldl specMergeStep (none, []) with
  | (none, out) => out
  | (some cur, out) => if cur.text.trim = "" then out else out ++ [cur]

/-! ## Cache key construction (`config.py`, lines 69 and 118-127)

`diarization_cache_path = output_dir / f"{stem}.diarization.pkl"`;
`asr_cache_file_path = output_dir / f"{stem}_{model_slug}.asr_batched.pkl"`
(or `.asr.pkl` without batching) with `model_slug = asr_model.replace('/','_')`.
Only the filename part is modelled; all configurations share `output_dir`. -/

/-- The configuration fields that feed the cache key properties. -/
structure CacheKeyConfig where
  stem : String
  diarizationModel : String
  asrModel : String
  enableAsrBatching : Bool
  deriving DecidableEq, Repr

/-- `self.asr_model.replace('/', '_')`. -/
def modelNameSlug (m : String) : String :=
  String.map (fun c => if c = '/' then '_' else c) m

/-- `f"{self.audio_file_path.stem}.diarization.pkl"` (config.py line 69). -/
def diarizationCachePath (c : CacheKeyConfig) : String :=
  c.stem ++ ".diarization.pkl"

/-- `asr_cache_filename` (config.py lines 118-127). -/
def asrCacheFilePath (c : CacheKeyConfig) : String :=
  if c.enableAsrBatching then
    c.stem ++ "_" ++ modelNameSlug c.asrModel ++ ".asr_batched.pkl"
  else
    c.stem ++ "_" ++ modelNameSlug c.asrModel ++ ".asr.pkl"

/-! ## Result cache discipline and failure propagation
(`_perform_diarization` lines 104-129, `_perform_asr` lines 156-265,
`run` lines 348-388)

The cache file's content is modelled as `Option (Blob α)`: absent file,
or a blob that unpickles to a value passing the shape check (`ok`),
unpickles but fails it (`badShape`), or raises during `pickle.load`
(`corrupt`).  Computation by the external engine is modelled as
`Option α` (`none` = the engine raised; the stage catches it and returns
`None`).  The ASR stage's final `pickle.dump` (line 263) sits *outside*
every `try`, so its failure is an exception escaping the stage, modelled
by `Except Unit`. -/

/-- A cached blob as the load path classifies it. -/
inductive Blob (α : Type) where
  | ok (a : α)
  | badShape
  | corrupt
  deriving DecidableEq, Repr

/-- The guarded cache read (lines 106-114 / 158-166): a value is obtained
only when the file exists, unpickles, and passes the shape check; every
other case falls through to recomputation. -/
def loadCached {α : Type} (cache : Option (Blob α)) : Option α :=
  match cache with
  | some (Blob.ok a) => some a
  | _ => none

/-- `_perform_diarization`: returns the result (or `none` on engine
failure) together with the cache file's new content.  The `pickle.dump`
(line 124) is inside the same `try` as the engine call, so a successful
compute refreshes the cache. -/
def performDiarization {α : Type} (force : Bool) (cache : Option (Blob α))
    (compute : Option α) : Option α × Option (Blob α) :=
  if ¬force ∧ cache.isSome then
    match loadCached cache with
    | some a => (some a, cache)
    | none =>
      match compute with
      | some r => (some r, some (Blob.ok r))
      | none => (none, cache)
  else
    match compute with
    | some r => (some r, some (Blob.ok r))
    | none => (none, cache)

/-- `_perform_asr`: same guarded read, but the final `pickle.dump`
(line 263) is outside every `try`; `persistFails` models an I/O error
there, which escapes the stage as an exception (`Except.error`). -/
def performAsr {α : Type} (force : Bool) (cache : Option (Blob α))
    (compute : Option α) (persistFails : Bool) :
    Except Unit (Option α × Option (Blob α)) :=
  if ¬force ∧ cache.isSome then
    match loadCached cache with
    | some a => Except.ok (some a, cache)
    | none =>
      match compute with
      | some r => if persistFails then Except.error () else Except.ok (some r, some (Blob.ok r))
      | none => Except.ok (none, cache)
  else
    match compute with
    | some r => if persistFails then Except.error () else Except.ok (some r, some (Blob.ok r))
    | none => Except.ok (none, cache)

/-- `run` (lines 348-388), at the granularity these claims need:
diarization failure aborts with the single `None` outcome; then
`_perform_asr` is called with no surrounding `try`, so an exception it
raises propagates to `run`'s caller; otherwise ASR failure aborts with
`None`, and success flows on to combination (abstracted as the pair of
stage results). -/
def runPipeline {α β : Type} (dForce aForce : Bool)
    (dCache : Option (Blob α)) (aCache : Option (Blob β))
    (dCompute : Option α) (aCompute : Option β) (persistFails : Bool) :
    Except Unit (Option (α × β)) :=
  match (performDiarization dForce dCache dCompute).1 with
  | none => Except.ok none
  | some d =>
    match performAsr aForce aCache aCompute persistFails with
    | Except.error e => Except.error e
    | Except.ok (none, _) => Except.ok none
    | Except.ok (some a, _) => Except.ok (some (d, a))

/-! ## Theorems -/

/-- Claim C4: for every speaker timeline and timestamp `t`, the aligner
returns the label of the first interval in iteration order with
`start <= t < end`; if no yielded interval contains `t` — including when
the iterator raises partway — it returns the sentinel `"UNKNOWN_SPEAKER"`
(and, being a total function, never aborts the pipeline). -/
theorem speaker_aligner_first_match (steps : List IterStep) (t : ℚ) :
    getSpeakerForWord steps t =
      match (yieldedIntervals steps).find? (fun seg => decide (seg.start ≤ t ∧ t < seg.stop)) with
      | some seg => seg.speaker
      | none => "UNKNOWN_SPEAKER" := by
  induction steps with
  | nil => rfl
  | cons s rest ih =>
    cases s with
    | err => rfl
    | ok seg =>
      by_cases h : seg.start ≤ t ∧ t < seg.stop
      · simp [getSpeakerForWord, yieldedIntervals, List.find?_cons, h]
      · simp [getSpeakerForWord, yieldedIntervals, List.find?_cons, h, ih]

/-- Helper: when the accumulator is non-empty, every step of the per-chunk
acceptance fold keeps it non-empty and reduces to a plain filter against
the fixed boundary. -/
theorem foldl_accept_of_ne_nil (eff : ℚ) (segs : List WordSeg) :
    ∀ acc : List WordSeg, acc ≠ [] →
      segs.foldl (fun a seg => if a.isEmpty ∨ eff ≤ seg.start then a ++ [seg] else a) acc =
        acc ++ segs.filter (fun s => decide (eff ≤ s.start)) := by
  induction segs with
  | nil => intro acc _; simp
  | cons s rest ih =>
    intro acc hacc
    have hne : (acc ++ [s]) ≠ [] := by simp
    by_cases hs : eff ≤ s.start
    · simp only [List.foldl_cons, hs, or_true, if_true]
      rw [ih (acc ++ [s]) hne, List.filter_cons_of_pos (by simpa using hs)]
      simp
    · have hcond : ¬(acc.isEmpty = true ∨ eff ≤ s.start) := by
        simp only [List.isEmpty_eq_true]
        rintro (h | h)
        · exact hacc h
        · exact hs h
      simp only [List.foldl_cons]
      rw [if_neg hcond, ih acc hacc, List.filter_cons_of_neg (by simpa using hs)]

/-- Helper: when every segment of the chunk starts at or after the
boundary, the fold accepts all of them. -/
theorem foldl_accept_all (eff : ℚ) (segs : List WordSeg)
    (h : ∀ s ∈ segs, eff ≤ s.start) :
    ∀ acc : List WordSeg,
      segs.foldl (fun a seg => if a.isEmpty ∨ eff ≤ seg.start then a ++ [seg] else a) acc =
        acc ++ segs := by
  induction segs with
  | nil => intro acc; simp
  | cons s rest ih =>
    intro acc
    have hs : eff ≤ s.start := h s (List.mem_cons_self s rest)
    have hrest : ∀ x ∈ rest, eff ≤ x.start := fun x hx => h x (List.mem_cons_of_mem s hx)
    simp only [List.foldl_cons, hs, or_true, if_true]
    rw [ih hrest (acc ++ [s])]
    simp

/-- Claim C9: the overlap filter is gated on whether any word has been
accumulated so far, not on the chunk index — a chunk all of whose
predecessors contributed zero accepted words is processed with the
effective boundary at its own start, so all its words (which start at or
after the chunk offset) are accepted, including ones starting before
`chunk.start + V/2`. -/
theorem stitcher_gate_on_accumulator (V : ℚ) (pre : List (ℚ × List WordSeg))
    (off : ℚ) (segs : List WordSeg)
    (hpre : accumulateChunks V pre = [])
    (hsegs : ∀ s ∈ segs, off ≤ s.start) :
    accumulateChunks V (pre ++ [(off, segs)]) = segs := by
  unfold accumulateChunks at hpre ⊢
  rw [List.foldl_append, hpre]
  simp only [List.foldl_cons, List.foldl_nil]
  unfold processChunk
  simp only [List.isEmpty_nil, if_true]
  rw [foldl_accept_all off segs hsegs []]
  simp

/-- Witness for C9: the first chunk yields no words, so the second chunk's
word at global start 8.3 — before the claimed boundary 9 — is accepted. -/
theorem stitcher_gate_on_accumulator_witness :
    accumulateChunks 2 [((0 : ℚ), ([] : List WordSeg))] = [] ∧
    (∀ s ∈ [(⟨"w2", 83/10, 43/5⟩ : WordSeg)], (8 : ℚ) ≤ s.start) ∧
    accumulateChunks 2 ([((0 : ℚ), ([] : List WordSeg))] ++ [((8 : ℚ), [⟨"w2", 83/10, 43/5⟩])]) =
      [⟨"w2", 83/10, 43/5⟩] :=
  ⟨by simp [accumulateChunks, processChunk], by norm_num,
    stitcher_gate_on_accumulator 2 [((0 : ℚ), [])] 8 [⟨"w2", 83/10, 43/5⟩]
      (by simp [accumulateChunks, processChunk]) (by norm_num)⟩

/-- Counterexample to claim C2 as stated: when the first chunk contributes
no accepted words, a second-chunk word whose start 8.3 lies before the
effective boundary `8 + 2/2 = 9` is nevertheless accepted — acceptance is
gated on the accumulator being empty, not on belonging to the first chunk. -/
theorem stitcher_boundary_counterexample :
    (83 / 10 : ℚ) < 8 + 2 / 2 ∧
    accumulateChunks 2 [((0 : ℚ), []), ((8 : ℚ), [⟨"w2", 83/10, 43/5⟩])] =
      [⟨"w2", 83/10, 43/5⟩] := by
  refine ⟨by norm_num, ?_⟩
  simp [accumulateChunks, processChunk]

/-- Claim C2 (amended): once the accumulated stream is non-empty when a
chunk begins processing, a translated word token is accepted iff its start
is at or after `chunk.start + V/2`; when the accumulated stream is still
empty the boundary degenerates to the chunk's own start and the first
token is accepted unconditionally.  In particular, with chunks `[0,10)`
and `[8,18)` and overlap `V = 2` where the first chunk contributed a word,
the second chunk's word at global start 8.3 is dropped and its word at
global start 9.5 is kept. -/
theorem stitcher_boundary_amended (V : ℚ) (acc : List WordSeg) (off : ℚ)
    (segs : List WordSeg) (hacc : acc ≠ []) :
    processChunk V acc off segs =
      acc ++ segs.filter (fun s => decide (off + V / 2 ≤ s.start)) ∧
    stitchSegments 2 [((0 : ℚ), [⟨"w1", 3/2, 9/5⟩]),
        ((8 : ℚ), [⟨"w2", 83/10, 43/5⟩, ⟨"w3", 19/2, 49/5⟩])] =
      [⟨"w1", 3/2, 9/5⟩, ⟨"w3", 19/2, 49/5⟩] := by
  constructor
  · have hemp : acc.isEmpty = false := List.isEmpty_eq_false.mpr hacc
    unfold processChunk
    simp only [hemp, Bool.false_eq_true, if_false]
    exact foldl_accept_of_ne_nil (off + V / 2) segs acc hacc
  · have hacc2 : accumulateChunks 2 [((0 : ℚ), [⟨"w1", 3/2, 9/5⟩]),
        ((8 : ℚ), [⟨"w2", 83/10, 43/5⟩, ⟨"w3", 19/2, 49/5⟩])] =
        [⟨"w1", 3/2, 9/5⟩, ⟨"w3", 19/2, 49/5⟩] := by
      norm_num [accumulateChunks, processChunk]
    unfold stitchSegments
    rw [hacc2]
    have hsorted : sortByStart [⟨"w1", 3/2, 9/5⟩, ⟨"w3", 19/2, 49/5⟩] =
        [(⟨"w1", 3/2, 9/5⟩ : WordSeg), ⟨"w3", 19/2, 49/5⟩] := by
      unfold sortByStart
      apply List.mergeSort_of_sorted
      norm_num [List.pairwise_cons]
    rw [hsorted]
    norm_num [dedupGo]

/-- Witness for the amended claim C2, at the claim's own example: first
chunk `[0,10)` with a word at 1.5 s, second chunk `[8,18)` filtered
against boundary 9. -/
theorem stitcher_boundary_amended_witness :
    ([(⟨"w1", 3/2, 9/5⟩ : WordSeg)] ≠ []) ∧
    (processChunk 2 [⟨"w1", 3/2, 9/5⟩] 8 [⟨"w2", 83/10, 43/5⟩, ⟨"w3", 19/2, 49/5⟩] =
        [⟨"w1", 3/2, 9/5⟩] ++
          List.filter (fun s => decide ((8 : ℚ) + 2 / 2 ≤ s.start))
            [⟨"w2", 83/10, 43/5⟩, ⟨"w3", 19/2, 49/5⟩] ∧
      stitchSegments 2 [((0 : ℚ), [⟨"w1", 3/2, 9/5⟩]),
          ((8 : ℚ), [⟨"w2", 83/10, 43/5⟩, ⟨"w3", 19/2, 49/5⟩])] =
        [⟨"w1", 3/2, 9/5⟩, ⟨"w3", 19/2, 49/5⟩]) :=
  ⟨by simp,
    stitcher_boundary_amended 2 [⟨"w1", 3/2, 9/5⟩] 8
      [⟨"w2", 83/10, 43/5⟩, ⟨"w3", 19/2, 49/5⟩] (by simp)⟩

/-- Helper: the deduplication loop's output is a sublist of the already
kept segments followed by the input. -/
theorem dedupGo_sublist :
    ∀ (l acc : List WordSeg) (seen : List (ℚ × ℚ × String)),
      (dedupGo l acc seen).Sublist (acc ++ l) := by
  intro l
  induction l with
  | nil => intro acc seen; simp [dedupGo]
  | cons s rest ih =>
    intro acc seen
    unfold dedupGo
    by_cases h : (s.start, s.stop, s.text) ∈ seen
    · rw [if_pos h]
      exact (ih acc seen).trans
        (List.Sublist.append_left (List.sublist_cons_self s rest) acc)
    · rw [if_neg h]
      have := ih (acc ++ [s]) ((s.start, s.stop, s.text) :: seen)
      simpa [List.append_assoc] using this

/-- Helper: the deduplication loop never keeps two segments with the same
`(start, end, text)` key, given that all keys kept so far are in `seen`. -/
theorem dedupGo_pairwise :
    ∀ (l acc : List WordSeg) (seen : List (ℚ × ℚ × String)),
      (∀ a ∈ acc, (a.start, a.stop, a.text) ∈ seen) →
      acc.Pairwise (fun a b : WordSeg => (a.start, a.stop, a.text) ≠ (b.start, b.stop, b.text)) →
      (dedupGo l acc seen).Pairwise
        (fun a b : WordSeg => (a.start, a.stop, a.text) ≠ (b.start, b.stop, b.text)) := by
  intro l
  induction l with
  | nil => intro acc seen _ hp; simpa [dedupGo] using hp
  | cons s rest ih =>
    intro acc seen hmem hp
    unfold dedupGo
    by_cases h : (s.start, s.stop, s.text) ∈ seen
    · rw [if_pos h]
      exact ih acc seen hmem hp
    · rw [if_neg h]
      refine ih (acc ++ [s]) ((s.start, s.stop, s.text) :: seen) ?_ ?_
      · intro a ha
        rcases List.mem_append.mp ha with ha | ha
        · exact List.mem_cons_of_mem _ (hmem a ha)
        · rw [List.mem_singleton.mp ha]
          exact List.mem_cons_self _ _
      · rw [List.pairwise_append]
        refine ⟨hp, List.pairwise_singleton _ _, ?_⟩
        intro a ha b hb hab
        rw [List.mem_singleton.mp hb] at hab
        exact h (hab ▸ hmem a ha)

/-- Claim C3: for every collection of per-chunk word tokens, the stitched
word stream is sorted by start time and no two of its entries share the
same `(start, end, text)` triple. -/
theorem stitched_sorted_and_deduplicated (V : ℚ) (chunks : List (ℚ × List WordSeg)) :
    List.Sorted (fun a b : WordSeg => a.start ≤ b.start) (stitchSegments V chunks) ∧
    (stitchSegments V chunks).Pairwise
      (fun a b : WordSeg => (a.start, a.stop, a.text) ≠ (b.start, b.stop, b.text)) := by
  constructor
  · have hsorted : (sortByStart (accumulateChunks V chunks)).Pairwise
        (fun a b : WordSeg => decide (a.start ≤ b.start) = true) := by
      apply List.sorted_mergeSort
      · intro a b c hab hbc
        simp only [decide_eq_true_eq] at hab hbc ⊢
        exact le_trans hab hbc
      · intro a b
        simpa using le_total a.start b.start
    have hsub : (stitchSegments V chunks).Sublist (sortByStart (accumulateChunks V chunks)) := by
      simpa using dedupGo_sublist (sortByStart (accumulateChunks V chunks)) [] []
    exact List.Pairwise.sublist hsub (hsorted.imp (by simp))
  · exact dedupGo_pairwise _ [] [] (by simp) List.Pairwise.nil

/-- Counterexample to claim C5 as stated: at stream end the open segment
is emitted with its text *untrimmed* — only the emptiness test uses the
trimmed text (lines 315-316 test `current_segment["text"].strip()` but
append the segment unchanged).  A single word with text `" hi "` is
emitted as `" hi "`, not as its trim `"hi"`. -/
theorem merger_end_trim_counterexample :
    mergeAligned [⟨"A", " hi ", 0, 1⟩] = [⟨"A", " hi ", 0, 1⟩] ∧
    (" hi ").trim ≠ " hi " := by
  constructor
  · simp +decide [mergeAligned, mergeStep, String.trim, Substring.trim, String.toSubstring,
      Substring.takeWhileAux, Substring.takeRightWhileAux, Substring.toString]
  · simp +decide [String.trim, Substring.trim, String.toSubstring,
      Substring.takeWhileAux, Substring.takeRightWhileAux, Substring.toString]

/-- Helper: each step of the merging fold agrees with the spec-level step
whose split condition is phrased as the disjunction "speaker change OR
gap ≥ 1.0 s". -/
theorem mergeStep_eq_specMergeStep (st : Option Segment × List Segment) (w : AlignedWord) :
    mergeStep st w = specMergeStep st w := by
  obtain ⟨cur, out⟩ := st
  cases cur with
  | none => rfl
  | some c =>
    simp only [mergeStep, specMergeStep]
    by_cases h : c.speaker = w.speaker ∧ w.start - c.stop < 1
    · have h2 : ¬(c.speaker ≠ w.speaker ∨ 1 ≤ w.start - c.stop) := by
        push_neg
        exact h
      rw [if_pos h, if_neg h2]
    · have h2 : c.speaker ≠ w.speaker ∨ 1 ≤ w.start - c.stop := by
        rcases not_and_or.mp h with h1 | h1
        · exact Or.inl h1
        · exact Or.inr (not_lt.mp h1)
      rw [if_neg h, if_pos h2]

/-- Claim C5 (amended): the merger folds the aligned stream with exactly
the two split conditions "speaker change" and "gap ≥ 1.0 s"; at stream end
the open segment is emitted when its trimmed text is non-empty, but with
its text left untrimmed.  Feeding the four example words yields exactly
three segments: A spanning 0.0-1.0, B spanning 1.1-1.5, A spanning
2.6-3.0. -/
theorem merger_two_split_conditions (ws : List AlignedWord) :
    mergeAligned ws = specMergeAligned ws ∧
    mergeAligned [⟨"A", "a", 0, 1/2⟩, ⟨"A", "b", 3/5, 1⟩,
        ⟨"B", "c", 11/10, 3/2⟩, ⟨"A", "d", 13/5, 3⟩] =
      [⟨"A", "ab", 0, 1⟩, ⟨"B", "c", 11/10, 3/2⟩, ⟨"A", "d", 13/5, 3⟩] := by
  constructor
  · unfold mergeAligned specMergeAligned
    rw [show mergeStep = specMergeStep from funext fun st => funext fun w =>
      mergeStep_eq_specMergeStep st w]
  · norm_num [mergeAligned, mergeStep]
    simp +decide [String.trim, Substring.trim, String.toSubstring,
      Substring.takeWhileAux, Substring.takeRightWhileAux, Substring.toString]

/-- Counterexample to claim C6 as stated: the diarization cache path uses
only the audio file's stem — two configurations that differ in the
diarization model collide on the same diarization cache entry. -/
theorem cache_key_counterexample :
    (⟨"audio", "pyannote/speaker-diarization-3.1", "readerbench/whisper-ro", false⟩ :
        CacheKeyConfig) ≠
      ⟨"audio", "pyannote/speaker-diarization-2.0", "readerbench/whisper-ro", false⟩ ∧
    diarizationCachePath
        ⟨"audio", "pyannote/speaker-diarization-3.1", "readerbench/whisper-ro", false⟩ =
      diarizationCachePath
        ⟨"audio", "pyannote/speaker-diarization-2.0", "readerbench/whisper-ro", false⟩ := by
  constructor
  · intro h
    exact absurd (congrArg CacheKeyConfig.diarizationModel h) (by decide)
  · rfl

/-- Helper: appending a common left and right part to two strings is
injective in the middle part. -/
theorem string_append_middle_cancel {p s1 s2 q : String}
    (h : p ++ s1 ++ q = p ++ s2 ++ q) : s1 = s2 := by
  have hd : (p.data ++ s1.data) ++ q.data = (p.data ++ s2.data) ++ q.data := by
    have := congrArg String.data h
    simpa [String.data_append] using this
  have hd2 : s1.data = s2.data :=
    List.append_cancel_left (List.append_cancel_right hd)
  cases s1
  cases s2
  exact congrArg String.mk hd2

/-- Claim C6 (amended): the ASR cache key derives from the input stem, the
ASR model name with `/` replaced by `_`, and the batching mode — for
configurations sharing a stem and batching mode the ASR cache paths
coincide exactly when the slugged model names coincide.  The diarization
cache key derives from the stem alone, independent of any model identity. -/
theorem cache_key_amended (c1 c2 : CacheKeyConfig) (hstem : c1.stem = c2.stem)
    (hbatch : c1.enableAsrBatching = c2.enableAsrBatching) :
    diarizationCachePath c1 = diarizationCachePath c2 ∧
    (asrCacheFilePath c1 = asrCacheFilePath c2 ↔
      modelNameSlug c1.asrModel = modelNameSlug c2.asrModel) := by
  constructor
  · unfold diarizationCachePath
    rw [hstem]
  · unfold asrCacheFilePath
    rw [hstem, hbatch]
    cases c2.enableAsrBatching with
    | true =>
      rw [if_pos rfl, if_pos rfl]
      constructor
      · intro h
        exact string_append_middle_cancel h
      · intro h
        rw [h]
    | false =>
      rw [if_neg (by simp), if_neg (by simp)]
      constructor
      · intro h
        exact string_append_middle_cancel h
      · intro h
        rw [h]

/-- Witness for the amended claim C6: same stem and batching mode, ASR
models `"x/y"` and `"x_y"` — distinct names whose slugs coincide, so the
ASR cache paths collide exactly as the iff states. -/
theorem cache_key_amended_witness :
    ("audio" : String) = "audio" ∧ (false = false) ∧
    (diarizationCachePath ⟨"audio", "m1", "x/y", false⟩ =
        diarizationCachePath ⟨"audio", "m2", "x_y", false⟩ ∧
      (asrCacheFilePath ⟨"audio", "m1", "x/y", false⟩ =
          asrCacheFilePath ⟨"audio", "m2", "x_y", false⟩ ↔
        modelNameSlug "x/y" = modelNameSlug "x_y")) :=
  ⟨rfl, rfl, cache_key_amended ⟨"audio", "m1", "x/y", false⟩ ⟨"audio", "m2", "x_y", false⟩ rfl rfl⟩

/-- Claim C7: the cache read path fails closed — a blob that raises on
deserialization or fails the shape check is treated as absent and the
stage recomputes (never surfacing a hard error); a successful recompute
always overwrites the entry; and with the force-recompute flag the read is
bypassed (the stage behaves exactly as with an absent cache) while the
fresh result is still persisted. -/
theorem cache_read_fails_closed {α : Type} (b : Blob α) (v : α) (cache : Option (Blob α))
    (hb : b = Blob.badShape ∨ b = Blob.corrupt) :
    performDiarization false (some b) (some v) = (some v, some (Blob.ok v)) ∧
    performAsr false (some b) (some v) false = Except.ok (some v, some (Blob.ok v)) ∧
    performDiarization true cache (some v) = (some v, some (Blob.ok v)) ∧
    performAsr true cache (some v) false = Except.ok (some v, some (Blob.ok v)) ∧
    performDiarization true cache (some v) = performDiarization false none (some v) ∧
    performAsr true cache (some v) false = performAsr false none (some v) false := by
  rcases hb with hb | hb <;> subst hb <;>
    simp [performDiarization, performAsr, loadCached]

/-- Witness for C7 at a concrete corrupt blob over `ℕ`. -/
theorem cache_read_fails_closed_witness :
    ((Blob.corrupt : Blob ℕ) = Blob.badShape ∨ (Blob.corrupt : Blob ℕ) = Blob.corrupt) ∧
    (performDiarization false (some (Blob.corrupt : Blob ℕ)) (some 7) =
        (some 7, some (Blob.ok 7)) ∧
      performAsr false (some (Blob.corrupt : Blob ℕ)) (some 7) false =
        Except.ok (some 7, some (Blob.ok 7)) ∧
      performDiarization true (some (Blob.ok 3)) (some 7) = (some 7, some (Blob.ok 7)) ∧
      performAsr true (some (Blob.ok 3)) (some 7) false =
        Except.ok (some 7, some (Blob.ok 7)) ∧
      performDiarization true (some (Blob.ok 3)) (some 7) =
        performDiarization false none (some 7) ∧
      performAsr true (some (Blob.ok 3)) (some 7) false =
        performAsr false none (some 7) false) :=
  ⟨Or.inr rfl, cache_read_fails_closed Blob.corrupt 7 (some (Blob.ok 3)) (Or.inr rfl)⟩

/-- Helper: with a successful computation the diarization stage always
returns a result. -/
theorem performDiarization_fst_some {α : Type} (force : Bool) (cache : Option (Blob α))
    (v : α) : ∃ d, (performDiarization force cache (some v)).1 = some d := by
  unfold performDiarization
  by_cases hf : ¬force = true ∧ cache.isSome = true
  · rw [if_pos hf]
    cases hl : loadCached cache with
    | some a => exact ⟨a, rfl⟩
    | none => exact ⟨v, rfl⟩
  · rw [if_neg hf]
    exact ⟨v, rfl⟩

/-- Claim C10: if the ASR computation succeeds but persisting the result
to the cache raises (the `pickle.dump` at line 263 sits outside every
`try`), the exception escapes `_perform_asr` and propagates out of `run`
to the caller, instead of `run` returning the single `None` failure
outcome. -/
theorem asr_persist_error_propagates {α β : Type} (dv : α) (v : β)
    (dCache : Option (Blob α)) (aCache : Option (Blob β))
    (hmiss : loadCached aCache = none) :
    performAsr false aCache (some v) true = Except.error () ∧
    runPipeline false false dCache aCache (some dv) (some v) true = Except.error () := by
  have hasr : performAsr false aCache (some v) true = Except.error () := by
    unfold performAsr
    by_cases hc : ¬false = true ∧ aCache.isSome = true
    · rw [if_pos hc, hmiss]
      rfl
    · rw [if_neg hc]
      rfl
  refine ⟨hasr, ?_⟩
  obtain ⟨d, hd⟩ := performDiarization_fst_some false dCache dv
  unfold runPipeline
  rw [hd, hasr]

/-- Witness for C10 with absent caches over `ℕ`. -/
theorem asr_persist_error_propagates_witness :
    loadCached (none : Option (Blob ℕ)) = none ∧
    (performAsr false (none : Option (Blob ℕ)) (some 5) true = Except.error () ∧
      runPipeline false false (none : Option (Blob ℕ)) (none : Option (Blob ℕ))
        (some 4) (some 5) true = Except.error ()) :=
  ⟨rfl, asr_persist_error_propagates 4 5 none none rfl⟩

/-- Counterexample to claim C8 as stated: with overlap 301 s strictly
greater than chunk duration 300 s, the step is negative, `range` is empty,
and the batched ASR path returns a *successful empty* result rather than
failing fast with a configuration error. -/
theorem chunked_asr_overlap_counterexample :
    performAsrBatched 700000 300 301 (fun _ _ => []) =
      some { chunks := [], text := "" } ∧
    performAsrBatched 700000 300 301 (fun _ _ => []) ≠ none := by
  have h : performAsrBatched 700000 300 301 (fun _ _ => []) =
      some { chunks := [], text := "" } := by
    unfold performAsrBatched planChunks
    rw [dif_neg (by decide), if_neg (by decide)]
    simp only [List.foldl_nil, List.map_nil, List.filter_nil, sortByStart,
      List.mergeSort_nil, dedupGo]
    rfl
  exact ⟨h, by rw [h]; simp⟩

/-- Claim C8 (amended): overlap equal to the chunk duration makes the
`range` step zero, whose `ValueError` is caught and turned into the
stage's generic failure outcome before any chunk is computed; overlap
strictly greater than the chunk duration makes the step negative and the
stage silently succeeds with an empty result.  Neither case is reported
as a configuration error. -/
theorem chunked_asr_degenerate_amended (D C V : ℤ) (asrChunk : ℚ → ℚ → List WordSeg) :
    (V = C → performAsrBatched D C V asrChunk = none) ∧
    (C < V → performAsrBatched D C V asrChunk = some { chunks := [], text := "" }) := by
  constructor
  · intro h
    subst h
    unfold performAsrBatched planChunks
    rw [dif_neg (by omega), if_pos (by omega)]
  · intro h
    unfold performAsrBatched planChunks
    rw [dif_neg (by omega), if_neg (by omega)]
    simp only [List.foldl_nil, List.map_nil, List.filter_nil, sortByStart,
      List.mergeSort_nil, dedupGo]
    rfl

/-- Witness for the amended claim C8 at overlaps 300 s (equal) and 301 s
(greater) against a 300 s chunk duration. -/
theorem chunked_asr_degenerate_amended_witness :
    ((300 : ℤ) = 300 ∧ performAsrBatched 700000 300 300 (fun _ _ => []) = none) ∧
    ((300 : ℤ) < 301 ∧ performAsrBatched 700000 300 301 (fun _ _ => []) =
      some { chunks := [], text := "" }) :=
  ⟨⟨rfl, (chunked_asr_degenerate_amended 700000 300 300 (fun _ _ => [])).1 rfl⟩,
    ⟨by decide, (chunked_asr_degenerate_amended 700000 300 301 (fun _ _ => [])).2 (by decide)⟩⟩

/-- Unfolding equation for `chunkLoop`. -/
theorem chunkLoop_unfold (D C S : ℤ) (hS : 0 < S) (i : ℤ) :
    chunkLoop D C S hS i =
      if _h : i < D then
        (i, min (i + C) D) ::
          (if min (i + C) D = D then [] else chunkLoop D C S hS (i + S))
      else [] := by
  rw [chunkLoop]

/-- Helper: starting at `i < D`, the loop produces exactly the windows
`(i + j*S, min (i + j*S + C, D))` for `j = 0, …, n-1` for some positive
`n`. -/
theorem chunkLoop_shape (D C S : ℤ) (hS : 0 < S) :
    ∀ m : ℕ, ∀ i : ℤ, (D - i).toNat ≤ m → i < D →
      ∃ n : ℕ, 0 < n ∧ chunkLoop D C S hS i =
        (List.range n).map (fun j : ℕ => (i + (j : ℤ) * S, min (i + (j : ℤ) * S + C) D)) := by
  intro m
  induction m with
  | zero => intro i hle hi; omega
  | succ m ih =>
    intro i hle hi
    rw [chunkLoop_unfold, dif_pos hi]
    by_cases he : min (i + C) D = D
    · refine ⟨1, one_pos, ?_⟩
      rw [if_pos he, show List.range 1 = [0] from rfl, List.map_cons, List.map_nil]
      norm_num
    · rw [if_neg he]
      by_cases hi2 : i + S < D
      · obtain ⟨n, hn, hrec⟩ := ih (i + S) (by omega) hi2
        refine ⟨n + 1, by omega, ?_⟩
        rw [hrec, List.range_succ_eq_map, List.map_cons, List.map_map]
        refine List.cons_eq_cons.mpr ⟨by simp, ?_⟩
        apply List.map_congr_left
        intro j _
        simp only [Function.comp_apply, Prod.mk.injEq]
        push_cast
        constructor
        · ring
        · congr 1
          ring
      · rw [chunkLoop_unfold, dif_neg hi2]
        refine ⟨1, one_pos, ?_⟩
        rw [show List.range 1 = [0] from rfl, List.map_cons, List.map_nil]
        norm_num

/-- Helper: for a step no larger than the chunk length, every timestamp in
`[i, D)` lies inside some produced window. -/
theorem chunkLoop_covers (D C S : ℤ) (hS : 0 < S) (hSC : S ≤ C) :
    ∀ m : ℕ, ∀ i : ℤ, (D - i).toNat ≤ m → i < D →
      ∀ t : ℤ, i ≤ t → t < D →
        ∃ w ∈ chunkLoop D C S hS i, w.1 ≤ t ∧ t < w.2 := by
  intro m
  induction m with
  | zero => intro i hle hi; omega
  | succ m ih =>
    intro i hle hi t hit htD
    rw [chunkLoop_unfold, dif_pos hi]
    by_cases he : min (i + C) D = D
    · refine ⟨(i, min (i + C) D), by simp, hit, ?_⟩
      rw [he]
      exact htD
    · have hiC : i + C < D := by
        rcases lt_or_le (i + C) D with h | h
        · exact h
        · exact absurd (min_eq_right h) he
      rw [if_neg he]
      by_cases ht : t < i + C
      · exact ⟨(i, min (i + C) D), by simp, hit, lt_min ht htD⟩
      · have hrec := ih (i + S) (by omega) (by omega) t (by omega) htD
        obtain ⟨w, hw, hw2⟩ := hrec
        exact ⟨w, List.mem_cons_of_mem _ hw, hw2⟩

/-- Helper: for a step no larger than the chunk length, the last produced
window ends exactly at `D`. -/
theorem chunkLoop_getLast (D C S : ℤ) (hS : 0 < S) (hSC : S ≤ C) :
    ∀ m : ℕ, ∀ i : ℤ, (D - i).toNat ≤ m → i < D →
      ∀ w, (chunkLoop D C S hS i).getLast? = some w → w.2 = D := by
  intro m
  induction m with
  | zero => intro i hle hi; omega
  | succ m ih =>
    intro i hle hi w hw
    rw [chunkLoop_unfold, dif_pos hi] at hw
    by_cases he : min (i + C) D = D
    · rw [if_pos he] at hw
      simp only [List.getLast?_singleton, Option.some.injEq] at hw
      rw [← hw, he]
    · have hiC : i + C < D := by
        rcases lt_or_le (i + C) D with h | h
        · exact h
        · exact absurd (min_eq_right h) he
      rw [if_neg he] at hw
      have hi2 : i + S < D := by omega
      obtain ⟨n, hn, hrec⟩ := chunkLoop_shape D C S hS m (i + S) (by omega) hi2
      obtain ⟨n', rfl⟩ : ∃ n', n = n' + 1 := ⟨n - 1, by omega⟩
      rw [hrec, List.range_succ_eq_map, List.map_cons, List.getLast?_cons_cons] at hw
      apply ih (i + S) (by omega) hi2 w
      rw [hrec, List.range_succ_eq_map, List.map_cons]
      exact hw

/-- Claim C1: for every total duration `D`, chunk duration `C` and overlap
`V` (in milliseconds, as the code computes them) with `0 ≤ V < C` and
`D > C`, the chunk planner produces the ordered windows
`[i*S, min (i*S + C, D))` with step `S = C - V`; these windows cover
`[0, D)` with no gaps, no window end exceeds `D`, and the final window is
clipped to end exactly at `D`. -/
theorem chunk_planner_correct (D C V : ℤ) (hV : 0 ≤ V) (hVC : V < C) (hD : C < D) :
    ∃ ws, planChunks D C V = some ws ∧
      (∃ n : ℕ, 0 < n ∧
        ws = (List.range n).map
          (fun i : ℕ => ((i : ℤ) * (C - V), min ((i : ℤ) * (C - V) + C) D))) ∧
      (∀ t : ℤ, 0 ≤ t → t < D → ∃ w ∈ ws, w.1 ≤ t ∧ t < w.2) ∧
      (∀ w ∈ ws, w.2 ≤ D) ∧
      (∀ w, ws.getLast? = some w → w.2 = D) := by
  have hS : 0 < C - V := by omega
  have hD0 : (0 : ℤ) < D := by omega
  refine ⟨chunkLoop D C (C - V) hS 0, ?_, ?_, ?_, ?_, ?_⟩
  · unfold planChunks
    rw [dif_pos hS]
  · obtain ⟨n, hn, hshape⟩ := chunkLoop_shape D C (C - V) hS (D - 0).toNat 0 le_rfl hD0
    refine ⟨n, hn, ?_⟩
    rw [hshape]
    apply List.map_congr_left
    intro j _
    norm_num
  · intro t ht htD
    exact chunkLoop_covers D C (C - V) hS (by omega) (D - 0).toNat 0 le_rfl hD0 t ht htD
  · intro w hw
    obtain ⟨n, hn, hshape⟩ := chunkLoop_shape D C (C - V) hS (D - 0).toNat 0 le_rfl hD0
    rw [hshape] at hw
    obtain ⟨j, hj, rfl⟩ := List.mem_map.mp hw
    exact min_le_right _ _
  · intro w hw
    exact chunkLoop_getLast D C (C - V) hS (by omega) (D - 0).toNat 0 le_rfl hD0 w hw

/-- Witness for C1 at `D = 25`, `C = 10`, `V = 3` (step 7, windows
`(0,10), (7,17), (14,24), (21,25)`). -/
theorem chunk_planner_correct_witness :
    (0 : ℤ) ≤ 3 ∧ (3 : ℤ) < 10 ∧ (10 : ℤ) < 25 ∧
    (∃ ws, planChunks 25 10 3 = some ws ∧
      (∃ n : ℕ, 0 < n ∧
        ws = (List.range n).map
          (fun i : ℕ => ((i : ℤ) * (10 - 3), min ((i : ℤ) * (10 - 3) + 10) 25))) ∧
      (∀ t : ℤ, 0 ≤ t → t < 25 → ∃ w ∈ ws, w.1 ≤ t ∧ t < w.2) ∧
      (∀ w ∈ ws, w.2 ≤ 25) ∧
      (∀ w, ws.getLast? = some w → w.2 = 25)) :=
  ⟨by decide, by decide, by decide,
    chunk_planner_correct 25 10 3 (by decide) (by decide) (by decide)⟩

end Diarization
